import Mathlib

/-!
Shallow embedding of `src/main.rs`: three sorting routines
(`insertion_sort`, `quicksort`, `merge_sort`), the `merge` helper and the
`is_sorted` checker, together with theorems settling the specification
claims about them.

Modelling conventions:
* A Rust slice `&[T]` / `&mut [T]` is a `List`; an in-place routine is a
  function returning the final contents of its slice.
* `i32` elements are `Int` (the code only compares elements, so no
  wrap-around arithmetic occurs).
* `usize` arithmetic that can underflow is modelled with `checkedSub`,
  returning `none` exactly where the Rust program panics
  (debug-mode subtract overflow / release-mode out-of-bounds index).
* `insertion_sort` is generic in Rust (`T: PartialOrd`); the model takes
  the Boolean test used by `v[j-1] > v[j]` as a parameter `gt`, plus a
  default element `d` for the (never reached out-of-bounds) list reads.
-/

/-- Checked `usize` subtraction: `a - b`, or `none` when the Rust
subtraction `a - b` on unsigned integers would underflow (a panic). -/
def checkedSub (a b : Nat) : Option Nat :=
  if b ≤ a then some (a - b) else none

/-- Inner loop of `is_sorted`: starting at index `i` with `n` iterations
left, return `false` as soon as `slice[i] > slice[i+1]`, mirroring
`for i in 0..len-1 { if slice[i] > slice[i+1] { return false; } }`. -/
def isSortedAux (l : List Int) (i : Nat) : Nat → Bool
  | 0 => true
  | n + 1 =>
    if l.getD i 0 > l.getD (i + 1) 0 then false
    else isSortedAux l (i + 1) n

/-- The `is_sorted` function of `src/main.rs`. It computes `len - 1` as
the loop bound without guarding `len = 0`; on the empty slice that
unsigned subtraction underflows (panic), modelled as `none`. -/
def is_sorted (l : List Int) : Option Bool :=
  match checkedSub l.length 1 with
  | none => none
  | some ub => some (isSortedAux l 0 ub)

/-- Sortedness as the specification words it: every adjacent pair has its
left element not greater than its right element. This definition follows
the spec, for comparison with the code's `is_sorted`. -/
def sortedPerSpec : List Int → Bool
  | [] => true
  | [_] => true
  | a :: b :: t => decide (a ≤ b) && sortedPerSpec (b :: t)

/-- The `merge` function of `src/main.rs`. As committed it is a stub: the
body is just `xs`, returning the first input unchanged. -/
def merge (xs ys : List Int) : List Int :=
  xs

/-- The `merge_sort` function of `src/main.rs`: empty and singleton base
cases, then split at `len / 2`, recurse on both halves and combine with
`merge`. Returns the newly allocated vector. -/
def merge_sort (v : List Int) : List Int :=
  if v.length = 0 then []
  else if h1 : v.length = 1 then [v.getD 0 0]
  else
    let middle := v.length / 2
    merge (merge_sort (v.take middle)) (merge_sort (v.drop middle))
termination_by v.length
decreasing_by
  · simp only [List.length_take]
    omega
  · simp only [List.length_drop]
    omega

/-- The `quicksort` function of `src/main.rs`, acting on the contents of
its slice. Slices of length `< 2` return immediately. The partition step
is absent in the source and `smaller` is hard-coded to `0`; the call then
recurses on `v[0..smaller]` and `v[smaller+1..length]`, leaving the
element at index `smaller` in place. -/
def quicksort (v : List Int) : List Int :=
  if h : v.length < 2 then v
  else
    let smaller := 0
    quicksort (v.take smaller) ++ v.getD smaller 0 :: quicksort (v.drop (smaller + 1))
termination_by v.length
decreasing_by
  · simp only [List.length_take]
    omega
  · simp only [List.length_drop]
    omega

/-- Fuel-instrumented version of `quicksort`: `none` when the recursion
depth exceeds the fuel. Used to state that the recursion terminates, every
recursive call acting on a strictly shorter slice. -/
def quicksortFuel : Nat → List Int → Option (List Int)
  | 0, _ => none
  | fuel + 1, v =>
    if v.length < 2 then some v
    else
      match quicksortFuel fuel (v.take 0), quicksortFuel fuel (v.drop 1) with
      | some front, some back => some (front ++ v.getD 0 0 :: back)
      | _, _ => none

/-- Rust's `v.swap(i, j)` on a list: the element at `i` becomes the old
element at `j` and vice versa (`d` is a default for out-of-bounds reads,
never reached on in-bounds calls). -/
def listSwap (l : List α) (i j : Nat) (d : α) : List α :=
  (l.set i (l.getD j d)).set j (l.getD i d)

/-- Inner `while` loop of `insertion_sort`:
`while j > 0 && v[j-1] > v[j] { v.swap(j-1, j); j -= 1; }`,
with `gt` the `>` test of the element type. -/
def bubble (gt : α → α → Bool) (d : α) : List α → Nat → List α
  | v, 0 => v
  | v, j + 1 =>
    if gt (v.getD j d) (v.getD (j + 1) d) then
      bubble gt d (listSwap v j (j + 1) d) j
    else v

/-- The `insertion_sort` function of `src/main.rs`: for each `i` in
`0..v.len()`, bubble `v[i]` leftwards while its left neighbour is
strictly greater. Returns the final contents of the slice. -/
def insertion_sort (gt : α → α → Bool) (d : α) (v : List α) : List α :=
  (List.range v.length).foldl (fun acc i => bubble gt d acc i) v

/-- Comparison used to instantiate `insertion_sort` for the stability
claim: elements are `(key, id)` pairs whose `PartialOrd` compares only the
key, so distinct ids may compare equal. `gtKey p q` is Rust's `p > q`. -/
def gtKey (p q : Int × Nat) : Bool :=
  decide (q.1 < p.1)

/-! ### Helper lemmas about `quicksort` and `merge_sort` -/

lemma quicksort_nil : quicksort [] = [] := by
  unfold quicksort
  rfl

/-- With `smaller = 0`, `quicksort` recurses on the empty front slice and
the untouched tail, so it never moves an element. -/
lemma quicksort_eq_id (v : List Int) : quicksort v = v := by
  induction v with
  | nil => exact quicksort_nil
  | cons a t ih =>
    unfold quicksort
    by_cases h : (a :: t).length < 2
    · rw [dif_pos h]
    · rw [dif_neg h]
      simp [quicksort_nil, ih]

/-- With the stub `merge` returning its left input, `merge_sort` collapses
every vector to its leftmost element: `merge_sort v = v.take 1`. -/
lemma merge_sort_eq_take (n : Nat) :
    ∀ v : List Int, v.length ≤ n → merge_sort v = v.take 1 := by
  induction n with
  | zero =>
    intro v hv
    have hv0 : v = [] := List.eq_nil_of_length_eq_zero (Nat.le_zero.mp hv)
    subst hv0
    unfold merge_sort
    rfl
  | succ n ih =>
    intro v hv
    unfold merge_sort
    by_cases h0 : v.length = 0
    · have hv0 : v = [] := List.eq_nil_of_length_eq_zero h0
      subst hv0
      rfl
    · by_cases h1 : v.length = 1
      · obtain ⟨a, rfl⟩ := List.length_eq_one.mp h1
        simp
      · simp only [h0, if_false, h1, dif_neg]
        have hm1 : 1 ≤ v.length / 2 := by omega
        rw [show merge (merge_sort (v.take (v.length / 2)))
              (merge_sort (v.drop (v.length / 2)))
            = merge_sort (v.take (v.length / 2)) from rfl]
        rw [ih (v.take (v.length / 2)) (by simp [List.length_take]; omega)]
        rw [List.take_take, Nat.min_eq_left hm1]
        simp

lemma merge_sort_take_one (v : List Int) : merge_sort v = v.take 1 :=
  merge_sort_eq_take v.length v le_rfl

/-! ### Claim theorems about the stubbed sorters -/

/-- C9: `quicksort` as implemented leaves the slice contents exactly
unchanged — the partition step is absent, `smaller` is `0`, and both
recursive calls act on slices of the untouched array, so every position
holds the same value after the call as before. -/
theorem quicksort_frame_identity (v : List Int) : quicksort v = v :=
  quicksort_eq_id v

/-- C1: the order postcondition fails. On the repository's own test input
`[3, 2, 0, 5, 8, 9, 6, 3, 2, 0]`, `quicksort` returns the input unchanged
and the code's own `is_sorted` checker reports `false` on that output, so
not every sorter establishes non-decreasing order. -/
theorem quicksort_output_not_sorted :
    quicksort [3, 2, 0, 5, 8, 9, 6, 3, 2, 0] = [3, 2, 0, 5, 8, 9, 6, 3, 2, 0] ∧
    is_sorted [3, 2, 0, 5, 8, 9, 6, 3, 2, 0] = some false :=
  ⟨quicksort_eq_id _, by decide⟩

/-- C3: multiset preservation fails for `merge_sort`. On input `[1, 2]`
the returned vector is `[1]`: the element `2` is lost, so the output is
not a permutation of the input. -/
theorem merge_sort_loses_elements :
    merge_sort [1, 2] = [1] ∧ ¬ (merge_sort [1, 2]).Perm [1, 2] := by
  have h : merge_sort [1, 2] = [1] := by
    rw [merge_sort_take_one]
    rfl
  refine ⟨h, ?_⟩
  rw [h]
  decide

/-- C4: `merge` is a stub that returns its first argument unchanged:
`merge [5, 8, 9] [0, 2, 3, 6]` is `[5, 8, 9]`, not the merged vector
`[0, 2, 3, 5, 6, 8, 9]` promised by the specification. -/
theorem merge_returns_left_input :
    merge [5, 8, 9] [0, 2, 3, 6] = [5, 8, 9] ∧
    merge [5, 8, 9] [0, 2, 3, 6] ≠ [0, 2, 3, 5, 6, 8, 9] := by
  decide

/-- C6: idempotence on sorted input fails for `merge_sort`. The already
sorted input `[0, 0, 2, 2, 3, 3, 5, 6, 8, 9]` is collapsed to `[0]`
instead of being returned unchanged. -/
theorem merge_sort_collapses_sorted_input :
    sortedPerSpec [0, 0, 2, 2, 3, 3, 5, 6, 8, 9] = true ∧
    merge_sort [0, 0, 2, 2, 3, 3, 5, 6, 8, 9] = [0] := by
  refine ⟨by decide, ?_⟩
  rw [merge_sort_take_one]
  rfl

/-- C10: `merge_sort` as implemented returns `v.take 1`, i.e. `[v[0]]`
for a non-empty slice and `[]` for the empty one; its output length is
`min 1 (len v)`. -/
theorem merge_sort_output_take_one (v : List Int) :
    merge_sort v = v.take 1 ∧ (merge_sort v).length = min 1 v.length := by
  have h := merge_sort_take_one v
  exact ⟨h, by rw [h, List.length_take]⟩

/-! ### The sortedness checker -/

/-- C2: the `is_sorted` implementation does not guard the empty case. On
the empty slice the unsigned `len - 1` underflows (a panic, modelled as
`none`) instead of returning `true`; on a singleton it does return
`true`. -/
theorem is_sorted_empty_underflow :
    is_sorted [] = none ∧ is_sorted [5] = some true := by
  decide

lemma isSortedAux_shift (x : Int) :
    ∀ (n : Nat) (l : List Int) (i : Nat),
      isSortedAux (x :: l) (i + 1) n = isSortedAux l i n := by
  intro n
  induction n with
  | zero => intro l i; rfl
  | succ n ih =>
    intro l i
    simp only [isSortedAux]
    rw [List.getD_cons_succ, List.getD_cons_succ, ih]

/-- On a slice `a :: t` the checker's loop agrees with adjacent-pair
sortedness. -/
lemma isSortedAux_eq_sortedPerSpec :
    ∀ (t : List Int) (a : Int),
      isSortedAux (a :: t) 0 t.length = sortedPerSpec (a :: t) := by
  intro t
  induction t with
  | nil => intro a; rfl
  | cons b t2 ih =>
    intro a
    simp only [List.length_cons, isSortedAux, List.getD_cons_zero,
      List.getD_cons_succ, Nat.zero_add]
    rw [isSortedAux_shift, ih]
    by_cases hab : b < a
    · have hnle : ¬ a ≤ b := not_le.mpr hab
      simp [sortedPerSpec, hab, hnle]
    · have hle : a ≤ b := not_lt.mp hab
      simp [sortedPerSpec, hab, hle]

/-- C5 (amended): on every non-empty slice, `is_sorted` returns `true`
exactly when every adjacent pair has its left element not greater than
its right element. (On the empty slice it panics instead of returning
`true`, see the counterexample.) -/
theorem is_sorted_iff_adjacent_pairs (l : List Int) (h : l ≠ []) :
    is_sorted l = some true ↔ sortedPerSpec l = true := by
  obtain ⟨a, t, rfl⟩ := List.exists_cons_of_ne_nil h
  have hcs : checkedSub (a :: t).length 1 = some t.length := by
    simp [checkedSub]
  unfold is_sorted
  rw [hcs]
  simp [isSortedAux_eq_sortedPerSpec]

/-- Witness for C5's amended theorem at the concrete slice `[0, 2]`. -/
theorem is_sorted_iff_adjacent_pairs_witness :
    ([0, 2] : List Int) ≠ [] ∧
      (is_sorted [0, 2] = some true ↔ sortedPerSpec [0, 2] = true) :=
  ⟨by decide, is_sorted_iff_adjacent_pairs [0, 2] (by decide)⟩

/-- C5 counterexample: on the empty slice every adjacent pair is
(vacuously) ordered, yet `is_sorted` does not return `true` — it panics
on the unsigned `len - 1`. -/
theorem is_sorted_empty_not_true :
    ¬ (is_sorted [] = some true) ∧ sortedPerSpec [] = true := by
  decide

/-! ### Termination of `quicksort` -/

/-- Fuel one more than the slice length always suffices: each recursive
call acts on a strictly shorter slice (`v[0..0]` and `v[1..len]`, the
element at index `smaller = 0` being in neither). -/
lemma quicksortFuel_complete :
    ∀ (fuel : Nat) (v : List Int), v.length < fuel →
      quicksortFuel fuel v = some (quicksort v) := by
  intro fuel
  induction fuel with
  | zero =>
    intro v hv
    exact absurd hv (Nat.not_lt_zero _)
  | succ n ih =>
    intro v hv
    by_cases h2 : v.length < 2
    · simp only [quicksortFuel]
      rw [if_pos h2]
      unfold quicksort
      rw [dif_pos h2]
    · simp only [quicksortFuel]
      rw [if_neg h2]
      rw [ih (v.take 0) (by simp only [List.length_take]; omega)]
      rw [ih (v.drop 1) (by simp only [List.length_drop]; omega)]
      simp only [quicksort_eq_id, List.take_zero]
      obtain ⟨a, t, rfl⟩ :=
        List.exists_cons_of_ne_nil (l := v) (by intro hnil; subst hnil; simp at h2)
      simp

/-- C7: `quicksort` terminates on every input — the fuel-instrumented
version completes within recursion depth `len + 1` and agrees with the
recursive definition (slices of length `< 2` return at once, and both
recursive calls act on strictly shorter slices excluding the pivot
index). -/
theorem quicksort_recursion_bounded (v : List Int) :
    quicksortFuel (v.length + 1) v = some (quicksort v) :=
  quicksortFuel_complete (v.length + 1) v (Nat.lt_succ_self _)

/-! ### Stability of `insertion_sort` -/

lemma length_listSwap (l : List α) (i j : Nat) (d : α) :
    (listSwap l i j d).length = l.length := by
  simp [listSwap]

lemma length_bubble (gt : α → α → Bool) (d : α) :
    ∀ (n : Nat) (v : List α), (bubble gt d v n).length = v.length := by
  intro n
  induction n with
  | zero => intro v; rfl
  | succ j ih =>
    intro v
    simp only [bubble]
    by_cases hc : gt (v.getD j d) (v.getD (j + 1) d) = true
    · rw [if_pos hc, ih, length_listSwap]
    · rw [if_neg hc]

/-- A list with at least `j + 2` elements decomposes around the adjacent
positions `j` and `j + 1`. -/
lemma getD_decomp :
    ∀ (j : Nat) (l : List α) (d : α), j + 1 < l.length →
      l = l.take j ++ l.getD j d :: l.getD (j + 1) d :: l.drop (j + 2) := by
  intro j
  induction j with
  | zero =>
    intro l d hl
    obtain ⟨a, l1, rfl⟩ :=
      List.exists_cons_of_ne_nil (l := l) (by intro hnil; subst hnil; simp at hl)
    obtain ⟨b, t, rfl⟩ :=
      List.exists_cons_of_ne_nil (l := l1) (by intro hnil; subst hnil; simp at hl)
    simp
  | succ j ihj =>
    intro l d hl
    obtain ⟨a, t, rfl⟩ :=
      List.exists_cons_of_ne_nil (l := l) (by intro hnil; subst hnil; simp at hl)
    simp only [List.take_succ_cons, List.getD_cons_succ, List.drop_succ_cons,
      List.cons_append]
    exact congrArg (a :: ·) (ihj t d (by simp at hl; omega))

/-- Swapping the adjacent positions `j` and `j + 1` also has that
decomposed shape, with the two elements exchanged. -/
lemma listSwap_decomp :
    ∀ (j : Nat) (l : List α) (d : α), j + 1 < l.length →
      listSwap l j (j + 1) d
        = l.take j ++ l.getD (j + 1) d :: l.getD j d :: l.drop (j + 2) := by
  intro j
  induction j with
  | zero =>
    intro l d hl
    obtain ⟨a, l1, rfl⟩ :=
      List.exists_cons_of_ne_nil (l := l) (by intro hnil; subst hnil; simp at hl)
    obtain ⟨b, t, rfl⟩ :=
      List.exists_cons_of_ne_nil (l := l1) (by intro hnil; subst hnil; simp at hl)
    simp [listSwap]
  | succ j ihj =>
    intro l d hl
    obtain ⟨a, t, rfl⟩ :=
      List.exists_cons_of_ne_nil (l := l) (by intro hnil; subst hnil; simp at hl)
    show ((a :: t).set (j + 1) ((a :: t).getD (j + 2) d)).set (j + 2)
        ((a :: t).getD (j + 1) d) = _
    simp only [List.set_cons_succ, List.getD_cons_succ, List.take_succ_cons,
      List.drop_succ_cons, List.cons_append]
    exact congrArg (a :: ·) (ihj t d (by simp at hl; omega))

/-- Swapping two adjacent elements of which at most one satisfies `P`
does not change the `P`-filtered sublist. -/
lemma filter_adjacent_core (P : α → Bool) (pre post : List α) (a b : α)
    (h : ¬(P a = true ∧ P b = true)) :
    (pre ++ b :: a :: post).filter P = (pre ++ a :: b :: post).filter P := by
  simp only [List.filter_append, List.filter_cons]
  cases ha : P a <;> cases hb : P b <;> simp_all

lemma filter_listSwap (P : α → Bool) (l : List α) (j : Nat) (d : α)
    (hj : j + 1 < l.length)
    (hP : ¬(P (l.getD j d) = true ∧ P (l.getD (j + 1) d) = true)) :
    (listSwap l j (j + 1) d).filter P = l.filter P := by
  rw [listSwap_decomp j l d hj]
  conv_rhs => rw [getD_decomp j l d hj]
  exact filter_adjacent_core P (l.take j) (l.drop (j + 2))
    (l.getD j d) (l.getD (j + 1) d) hP

/-- The bubbling loop only swaps pairs related by `gt`; whenever `gt`
rules out that both elements of a swapped pair satisfy `P`, the
`P`-filtered sublist is untouched. -/
lemma filter_bubble (gt : α → α → Bool) (d : α) (P : α → Bool)
    (hgtP : ∀ a b, gt a b = true → ¬(P a = true ∧ P b = true)) :
    ∀ (n : Nat) (v : List α), n < v.length →
      (bubble gt d v n).filter P = v.filter P := by
  intro n
  induction n with
  | zero => intro v _; rfl
  | succ j ih =>
    intro v hv
    simp only [bubble]
    by_cases hc : gt (v.getD j d) (v.getD (j + 1) d) = true
    · rw [if_pos hc]
      rw [ih (listSwap v j (j + 1) d) (by rw [length_listSwap]; omega)]
      exact filter_listSwap P v j d hv (hgtP _ _ hc)
    · rw [if_neg hc]

lemma length_foldl_bubble (gt : α → α → Bool) (d : α) :
    ∀ (idxs : List Nat) (acc : List α),
      (idxs.foldl (fun a i => bubble gt d a i) acc).length = acc.length := by
  intro idxs
  induction idxs with
  | nil => intro acc; rfl
  | cons i t ih =>
    intro acc
    simp only [List.foldl_cons]
    rw [ih, length_bubble]

lemma filter_foldl_bubble (gt : α → α → Bool) (d : α) (P : α → Bool)
    (hgtP : ∀ a b, gt a b = true → ¬(P a = true ∧ P b = true)) :
    ∀ (idxs : List Nat) (acc : List α), (∀ i ∈ idxs, i < acc.length) →
      (idxs.foldl (fun a i => bubble gt d a i) acc).filter P = acc.filter P := by
  intro idxs
  induction idxs with
  | nil => intro acc _; rfl
  | cons i t ih =>
    intro acc hmem
    simp only [List.foldl_cons]
    rw [ih (bubble gt d acc i)
        (by rw [length_bubble]; exact fun i2 hi2 => hmem i2 (by simp [hi2]))]
    exact filter_bubble gt d P hgtP i acc (hmem i (by simp))

lemma filter_insertion_sort (gt : α → α → Bool) (d : α) (P : α → Bool)
    (hgtP : ∀ a b, gt a b = true → ¬(P a = true ∧ P b = true)) (v : List α) :
    (insertion_sort gt d v).filter P = v.filter P := by
  unfold insertion_sort
  exact filter_foldl_bubble gt d P hgtP (List.range v.length) v
    (fun i hi => List.mem_range.mp hi)

/-- C8: `insertion_sort` is stable. On `(key, id)` pairs whose order
compares only the key, the inner loop swaps only when the left key is
strictly greater, so for every key `k` the subsequence of elements with
key `k` (their ids in order) is exactly the same before and after
sorting. -/
theorem insertion_sort_stable (l : List (Int × Nat)) (k : Int) :
    (insertion_sort gtKey (0, 0) l).filter (fun p => decide (p.1 = k))
      = l.filter (fun p => decide (p.1 = k)) := by
  apply filter_insertion_sort
  intro a b hab
  rintro ⟨ha, hb⟩
  simp only [gtKey, decide_eq_true_eq] at hab ha hb
  omega
